import Mathlib

/-!
Shallow embedding of the img2xbin core pipeline: palette derivation, the
perceptual distance matcher, block reduction and the binary serializer, with
machine integers embedded as naturals (explicit `% 256` and `% 65536` where
the source's u8 / u16 arithmetic may wrap) and the floating-point (L, a, b)
conversion of the external oklab crate abstracted as a parameter producing
exact rationals.
-/

namespace Img2Xbin

/-- RGBA color with four 8-bit channels, embedded as naturals. -/
structure RGBA where
  r : Nat
  g : Nat
  b : Nat
  a : Nat
deriving DecidableEq

/-- Opaque black, used by the palette padding loop. -/
def black : RGBA := ⟨0, 0, 0, 255⟩

/-- A color in the perceptual (L, a, b) space. The source computes these with
32-bit floats; the embedding uses exact rationals for the three components. -/
structure Lab where
  l : ℚ
  a : ℚ
  b : ℚ
deriving DecidableEq

/-- Default Lab value used for total list indexing in specifications. -/
def labZero : Lab := ⟨0, 0, 0⟩

/-- Channel scaling round(c / 255 * 63): for a nonnegative channel this is
the floor of (126 * c + 255) / 510; the rounding never hits an exact half,
so round-half-away-from-zero and round-half-up agree with this value. -/
def scale63 (c : Nat) : Nat := (c * 126 + 255) / 510

/-- One entry of the hardware (vga) palette: each channel scaled to 0..63. -/
def scaleColor (c : RGBA) : RGBA := ⟨scale63 c.r, scale63 c.g, scale63 c.b, 255⟩

/-- One entry of the render palette: the hardware channel times 4 in u8
arithmetic. -/
def times4u8 (c : RGBA) : RGBA := ⟨c.r * 4 % 256, c.g * 4 % 256, c.b * 4 % 256, 255⟩

/-- The pair of palettes: vga is the 6-bit hardware palette, rgba the render
palette, with the field names of the source. -/
structure Palettes where
  vga : List RGBA
  rgba : List RGBA
deriving DecidableEq

/-- Palettes::new: scale every input color to the 6-bit range, pad with black
up to 16 entries, and derive the render palette by multiplying every channel
by 4. -/
def Palettes.new (input : List RGBA) : Palettes :=
  let vga := input.map scaleColor ++ List.replicate (16 - input.length) black
  { vga := vga, rgba := vga.map times4u8 }

/-- Squared Euclidean distance in (L, a, b) space, powi(2) written as a
product, evaluated in exact rational arithmetic. The source evaluates this
expression in 32-bit floats; the loop below therefore takes the computed
distance function as a parameter distSq, for which okDistSq is the
exact-arithmetic instance. -/
def okDistSq (c t : Lab) : ℚ :=
  (c.l - t.l) * (c.l - t.l) + (c.a - t.a) * (c.a - t.a) + (c.b - t.b) * (c.b - t.b)

/-- The state update of the find_closest loop: an unset state is replaced by
the new candidate, a set state only when the new distance is strictly
smaller (the source condition closest.is_none() || distance < closest_distance). -/
def combMin : Option (Nat × ℚ) → Option (Nat × ℚ) → Option (Nat × ℚ)
  | none, r => r
  | some s, none => some s
  | some (j, bd), some (k, dk) => if dk < bd then some (k, dk) else some (j, bd)

/-- The loop of find_closest: the state is the index and distance of the best
candidate so far; a later candidate wins only with a strictly smaller
distance. The stored index undergoes the source's `index as u8` cast, so it
is kept modulo 256. The distance computation is the parameter distSq,
standing for the f32 evaluation of the squared (L, a, b) distance. -/
def fcLoop (distSq : Lab → Lab → ℚ) (okTarget : Lab) :
    List Lab → Nat → Option (Nat × ℚ) → Option (Nat × ℚ)
  | [], _, st => st
  | c :: rest, i, st =>
    fcLoop distSq okTarget rest (i + 1) (combMin st (some (i % 256, distSq c okTarget)))

/-- find_closest: the u8 index of the perceptually closest candidate (the
enumeration index truncated by the source's `index as u8` cast), none when
the candidate list is empty (the source then panics through expect). The
conversion into (L, a, b) space is the parameter toOkl, standing for the
floating-point srgb conversion of the external oklab crate, and distSq is
the computed squared-distance function. -/
def find_closest (distSq : Lab → Lab → ℚ) (toOkl : RGBA → Lab) (rgba : RGBA)
    (palette : List RGBA) : Option Nat :=
  (fcLoop distSq (toOkl rgba) (palette.map toOkl) 0 none).map Prod.fst

/-- One step of the right-recursive description of the first-minimum search. -/
def fcStep (d : ℚ) : Option (Nat × ℚ) → Option (Nat × ℚ)
  | none => some (0, d)
  | some (j, bd) => if bd < d then some (j + 1, bd) else some (0, d)

/-- Right-recursive description of the same first-minimum search with
untruncated indices, used to reason about the loop. -/
def fcRec (distSq : Lab → Lab → ℚ) (okTarget : Lab) : List Lab → Option (Nat × ℚ)
  | [] => none
  | c :: rest => fcStep (distSq c okTarget) (fcRec distSq okTarget rest)

/-- Chunk: one encoded block (foreground, background, 8-pixel bitmask), with
the field names of the source. -/
structure Chunk where
  fg : Nat
  bg : Nat
  codepoint : Nat
deriving DecidableEq

/-- Occurrence count of index i inside a group, as the counting loop of the
source. -/
def countIdx (chunk : List Nat) (i : Nat) : Nat :=
  match chunk with
  | [] => 0
  | c :: rest => (if c = i then 1 else 0) + countIdx rest i

/-- The score list: one (index, count) pair for each palette index 0..15. -/
def scoreList (chunk : List Nat) : List (Nat × Nat) :=
  (List.range 16).map fun i => (i, countIdx chunk i)

/-- Stable insertion of a scored index: an already placed entry stays in front
only when its count is strictly larger. -/
def insertDesc (x : Nat × Nat) : List (Nat × Nat) → List (Nat × Nat)
  | [] => [x]
  | y :: ys => if x.2 < y.2 then y :: insertDesc x ys else x :: y :: ys

/-- Stable sort by descending count: the extensional behavior of the source's
stable sort_by comparing only the counts, descending. -/
def sortByScoreDesc : List (Nat × Nat) → List (Nat × Nat)
  | [] => []
  | x :: xs => insertDesc x (sortByScoreDesc xs)

/-- Vec::resize(2, (0, 0)): keep the first two entries, pad with (0, 0) when
fewer are present. -/
def resize2 (l : List (Nat × Nat)) : List (Nat × Nat) :=
  l.take 2 ++ List.replicate (2 - l.length) (0, 0)

/-- Sorted score list of a group. -/
def chunkScores (chunk : List Nat) : List (Nat × Nat) :=
  sortByScoreDesc (scoreList chunk)

/-- The two dominant indices of a group, first and second by descending
count. -/
def common_indexes (chunk : List Nat) : List Nat :=
  (resize2 (chunkScores chunk)).map Prod.fst

/-- bg: the most frequent index of the group. -/
def chunkBg (chunk : List Nat) : Nat := (common_indexes chunk).getD 0 0

/-- fg: the second most frequent index of the group. -/
def chunkFg (chunk : List Nat) : Nat := (common_indexes chunk).getD 1 0

/-- The render colors of the two dominant indices. -/
def common_palette (p : Palettes) (chunk : List Nat) : List RGBA :=
  (common_indexes chunk).map fun i => p.rgba.getD i black

/-- The in-place remap of a group: a pixel outside the two dominant indices is
overwritten with the return value of find_closest on the two-candidate render
palette (the position 0 or 1 inside that candidate list, exactly as the
source does); the none branch mirrors the source's expect and is unreachable
because the candidate list always has two entries. The distance function is
instantiated with the exact-arithmetic okDistSq, idealizing the f32
evaluation of the same expression. -/
def reducedIndexes (p : Palettes) (toOkl : RGBA → Lab) (chunk : List Nat) : List Nat :=
  chunk.map fun ci =>
    if ci ∈ common_indexes chunk then ci
    else
      match find_closest okDistSq toOkl (p.rgba.getD ci black) (common_palette p chunk) with
      | some k => k
      | none => 0

/-- The codepoint bitmask: left fold over the remapped group, bit 0 for bg and
1 otherwise, accumulated most-significant-bit-first in u8 arithmetic. -/
def chunkCodepoint (p : Palettes) (toOkl : RGBA → Lab) (chunk : List Nat) : Nat :=
  (reducedIndexes p toOkl chunk).foldl
    (fun acc idx => (acc * 2 + if idx = chunkBg chunk then 0 else 1) % 256) 0

/-- Reduction of one 8-index group to a Chunk. -/
def reduceChunk (p : Palettes) (toOkl : RGBA → Lab) (chunk : List Nat) : Chunk :=
  { fg := chunkFg chunk, bg := chunkBg chunk, codepoint := chunkCodepoint p toOkl chunk }

/-- chunks_exact(8): the complete groups of 8 consecutive entries; a trailing
remainder of fewer than 8 entries is not yielded. -/
def chunksExact8 : List Nat → List (List Nat)
  | a0 :: a1 :: a2 :: a3 :: a4 :: a5 :: a6 :: a7 :: rest =>
    [a0, a1, a2, a3, a4, a5, a6, a7] :: chunksExact8 rest
  | _ => []

/-- break_into_chunks: reduce every complete group of 8 indices. -/
def break_into_chunks (p : Palettes) (toOkl : RGBA → Lab) (indexes : List Nat) : List Chunk :=
  (chunksExact8 indexes).map (reduceChunk p toOkl)

/-- palette_to_bytes: three bytes (r, g, b) per palette entry. -/
def palette_to_bytes (palette : List RGBA) : List Nat :=
  (palette.map fun c => [c.r, c.g, c.b]).flatten

/-- chunks_to_bytes: per chunk the codepoint byte, then the color-pair byte
(bg << 4) + fg in u8 arithmetic. -/
def chunks_to_bytes (chunks : List Chunk) : List Nat :=
  (chunks.map fun c => [c.codepoint, (c.bg * 16 % 256 + c.fg) % 256]).flatten

/-- Unsigned 16-bit little-endian byte pair. -/
def u16le (n : Nat) : List Nat := [n % 256, n / 256 % 256]

/-- The identity glyph table: bytes 0..255 in order. -/
def font_bytes : List Nat := List.range 256

/-- save_xbin: the full output byte stream (the pure content written to the
file): magic, columns and rows as u16 little-endian with the u32-to-u16
truncation of the source casts, the flags constant, hardware palette, glyph
table and block data. -/
def save_xbin (width height : Nat) (palette : List RGBA) (chunks : List Chunk) : List Nat :=
  [88, 66, 73, 78, 26]
    ++ (u16le (width / 8 % 65536)
    ++ (u16le (height % 65536)
    ++ ([1, 11]
    ++ (palette_to_bytes palette
    ++ (font_bytes
    ++ chunks_to_bytes chunks)))))

/-- Priority order on scored indices: strictly larger count first, equal
counts ordered by smaller index first. -/
def lexLt (p q : Nat × Nat) : Prop := q.2 < p.2 ∨ (p.2 = q.2 ∧ p.1 < q.1)

/-- Specification predicate, following the spec's words: bg and fg are the
first and second ranked indices of the group by descending occurrence count,
ties between equal counts broken by the smaller palette index. -/
def IsTop2 (chunk : List Nat) (bg fg : Nat) : Prop :=
  bg < 16 ∧ fg < 16 ∧ bg ≠ fg ∧
  (countIdx chunk fg < countIdx chunk bg ∨
    (countIdx chunk bg = countIdx chunk fg ∧ bg < fg)) ∧
  (∀ j, j < 16 → j ≠ bg →
    countIdx chunk j < countIdx chunk bg ∨
      (countIdx chunk j = countIdx chunk bg ∧ bg < j)) ∧
  (∀ j, j < 16 → j ≠ bg → j ≠ fg →
    countIdx chunk j < countIdx chunk fg ∨
      (countIdx chunk j = countIdx chunk fg ∧ fg < j))

/-- A 16-entry grey input palette used for concrete evaluations. -/
def greyPal : List RGBA := (List.range 16).map fun i => ⟨16 * i, 16 * i, 16 * i, 255⟩

/-- A concrete (L, a, b) conversion used for concrete evaluations: the
identity embedding of the three channels. -/
def okId : RGBA → Lab := fun c => ⟨(c.r : ℚ), (c.g : ℚ), (c.b : ℚ)⟩

/-- Concrete palettes derived from the grey input palette. -/
def greyPalettes : Palettes := Palettes.new greyPal

/-- A group with three distinct indices: 5 four times, 3 three times, 7
once. -/
def bugChunk : List Nat := [5, 5, 5, 5, 3, 3, 3, 7]

/-- An index buffer of length 9, not a multiple of 8. -/
def nineIdx : List Nat := [5, 5, 5, 5, 3, 3, 3, 7, 2]

/-- A candidate palette of 257 colors whose unique closest entry to black sits
at index 256: 256 copies of a near-black color followed by black itself. -/
def bigPal : List RGBA := List.replicate 256 ⟨1, 0, 0, 255⟩ ++ [⟨0, 0, 0, 255⟩]

/-! ### Lemmas about the stable sort of scored indices -/

theorem insertDesc_perm (x : Nat × Nat) (l : List (Nat × Nat)) :
    (insertDesc x l).Perm (x :: l) := by
  induction l with
  | nil => simp [insertDesc]
  | cons y ys ih =>
    rw [insertDesc]
    split
    · exact (ih.cons y).trans (List.Perm.swap x y ys)
    · exact List.Perm.refl _

theorem sortByScoreDesc_perm (l : List (Nat × Nat)) : (sortByScoreDesc l).Perm l := by
  induction l with
  | nil => exact List.Perm.refl _
  | cons x xs ih => exact (insertDesc_perm x (sortByScoreDesc xs)).trans (ih.cons x)

theorem insertDesc_sorted (x : Nat × Nat) (l : List (Nat × Nat))
    (hs : l.Pairwise lexLt) (hx : ∀ y ∈ l, x.1 < y.1) :
    (insertDesc x l).Pairwise lexLt := by
  induction l with
  | nil => simp [insertDesc]
  | cons y ys ih =>
    rw [insertDesc]
    rcases List.pairwise_cons.mp hs with ⟨hy, hys⟩
    split
    · next hcnt =>
      refine List.pairwise_cons.mpr ⟨?_, ih hys fun z hz => hx z (List.mem_cons_of_mem y hz)⟩
      intro z hz
      rcases List.mem_cons.mp ((insertDesc_perm x ys).mem_iff.mp hz) with rfl | hz
      · exact Or.inl hcnt
      · exact hy z hz
    · next hcnt =>
      push_neg at hcnt
      refine List.pairwise_cons.mpr ⟨?_, hs⟩
      intro z hz
      rcases List.mem_cons.mp hz with rfl | hz
      · rcases Nat.lt_or_ge z.2 x.2 with h | h
        · exact Or.inl h
        · exact Or.inr ⟨Nat.le_antisymm h hcnt, hx z (List.mem_cons_self z ys)⟩
      · rcases hy z hz with h1 | ⟨h2, h3⟩
        · exact Or.inl (Nat.lt_of_lt_of_le h1 hcnt)
        · rcases Nat.lt_or_ge z.2 x.2 with h | h
          · exact Or.inl h
          · exact Or.inr ⟨Nat.le_antisymm h (h2 ▸ hcnt), hx z (List.mem_cons_of_mem y hz)⟩

theorem sortByScoreDesc_sorted (l : List (Nat × Nat))
    (h : l.Pairwise fun p q => p.1 < q.1) :
    (sortByScoreDesc l).Pairwise lexLt := by
  induction l with
  | nil => simp [sortByScoreDesc]
  | cons x xs ih =>
    rw [sortByScoreDesc]
    rcases List.pairwise_cons.mp h with ⟨hx, hxs⟩
    exact insertDesc_sorted x _ (ih hxs)
      fun y hy => hx y ((sortByScoreDesc_perm xs).mem_iff.mp hy)

theorem scoreList_pairwise_fst (chunk : List Nat) :
    (scoreList chunk).Pairwise fun p q => p.1 < q.1 := by
  unfold scoreList
  exact (List.pairwise_lt_range 16).map _ fun a b h => h

theorem scoreList_length (chunk : List Nat) : (scoreList chunk).length = 16 := by
  simp [scoreList]

theorem chunkScores_perm (chunk : List Nat) : (chunkScores chunk).Perm (scoreList chunk) :=
  sortByScoreDesc_perm _

theorem chunkScores_sorted (chunk : List Nat) : (chunkScores chunk).Pairwise lexLt :=
  sortByScoreDesc_sorted _ (scoreList_pairwise_fst chunk)

theorem chunkScores_length (chunk : List Nat) : (chunkScores chunk).length = 16 := by
  rw [(chunkScores_perm chunk).length_eq, scoreList_length]

theorem chunkScores_mem (chunk : List Nat) (j : Nat) (hj : j < 16) :
    (j, countIdx chunk j) ∈ chunkScores chunk :=
  (chunkScores_perm chunk).mem_iff.mpr
    (List.mem_map.mpr ⟨j, List.mem_range.mpr hj, rfl⟩)

theorem chunkScores_mem_elim (chunk : List Nat) (p : Nat × Nat)
    (hp : p ∈ chunkScores chunk) : p.1 < 16 ∧ p.2 = countIdx chunk p.1 := by
  have hp2 := (chunkScores_perm chunk).mem_iff.mp hp
  rcases List.mem_map.mp hp2 with ⟨i, hi, rfl⟩
  exact ⟨List.mem_range.mp hi, rfl⟩

theorem chunkScores_shape (chunk : List Nat) :
    ∃ s0 s1 rest, chunkScores chunk = s0 :: s1 :: rest := by
  have hlen := chunkScores_length chunk
  rcases h : chunkScores chunk with _ | ⟨s0, _ | ⟨s1, rest⟩⟩ <;> rw [h] at hlen <;>
    simp at hlen
  exact ⟨s0, s1, rest, rfl⟩

theorem chunkBg_eq (chunk : List Nat) (s0 s1 : Nat × Nat) (rest : List (Nat × Nat))
    (h : chunkScores chunk = s0 :: s1 :: rest) : chunkBg chunk = s0.1 := by
  simp [chunkBg, common_indexes, resize2, h]

theorem chunkFg_eq (chunk : List Nat) (s0 s1 : Nat × Nat) (rest : List (Nat × Nat))
    (h : chunkScores chunk = s0 :: s1 :: rest) : chunkFg chunk = s1.1 := by
  simp [chunkFg, common_indexes, resize2, h]

/-- Central characterization of the two dominant indices: bg is the index with
the strictly dominant (count, lowest-index) priority, fg the next one. -/
theorem bgfg_top2 (chunk : List Nat) : IsTop2 chunk (chunkBg chunk) (chunkFg chunk) := by
  unfold IsTop2
  obtain ⟨s0, s1, rest, hsh⟩ := chunkScores_shape chunk
  have hbg := chunkBg_eq chunk s0 s1 rest hsh
  have hfg := chunkFg_eq chunk s0 s1 rest hsh
  have hs0 : s0 ∈ chunkScores chunk := by rw [hsh]; exact List.mem_cons_self _ _
  have hs1 : s1 ∈ chunkScores chunk := by
    rw [hsh]; exact List.mem_cons_of_mem _ (List.mem_cons_self _ _)
  obtain ⟨hs0lt, hs0cnt⟩ := chunkScores_mem_elim chunk s0 hs0
  obtain ⟨hs1lt, hs1cnt⟩ := chunkScores_mem_elim chunk s1 hs1
  have hsorted := chunkScores_sorted chunk
  rw [hsh] at hsorted
  rcases List.pairwise_cons.mp hsorted with ⟨h0, hsorted1⟩
  rcases List.pairwise_cons.mp hsorted1 with ⟨h1, _⟩
  have h01 : lexLt s0 s1 := h0 s1 (List.mem_cons_self _ _)
  have hne : s0.1 ≠ s1.1 := by
    intro hEq
    rcases h01 with h | ⟨h, h2⟩
    · rw [hs0cnt, hs1cnt, hEq] at h; exact Nat.lt_irrefl _ h
    · exact Nat.ne_of_lt h2 hEq
  refine ⟨hbg ▸ hs0lt, hfg ▸ hs1lt, by rw [hbg, hfg]; exact hne, ?_, ?_, ?_⟩
  · rw [hbg, hfg, ← hs0cnt, ← hs1cnt]
    rcases h01 with h | ⟨h, h2⟩
    · exact Or.inl h
    · exact Or.inr ⟨h, h2⟩
  · intro j hj hjne
    have hjmem := chunkScores_mem chunk j hj
    rw [hsh] at hjmem
    rcases List.mem_cons.mp hjmem with hEq | hjmem
    · exact absurd (congrArg Prod.fst hEq) (by simpa [hbg] using hjne)
    · have := h0 _ hjmem
      rw [hbg, ← hs0cnt]
      rcases this with h | ⟨h, h2⟩
      · exact Or.inl h
      · exact Or.inr ⟨h.symm, h2⟩
  · intro j hj hjb hjf
    have hjmem := chunkScores_mem chunk j hj
    rw [hsh] at hjmem
    rcases List.mem_cons.mp hjmem with hEq | hjmem
    · exact absurd (congrArg Prod.fst hEq) (by simpa [hbg] using hjb)
    · rcases List.mem_cons.mp hjmem with hEq | hjmem
      · exact absurd (congrArg Prod.fst hEq) (by simpa [hfg] using hjf)
      · have := h1 _ hjmem
        rw [hfg, ← hs1cnt]
        rcases this with h | ⟨h, h2⟩
        · exact Or.inl h
        · exact Or.inr ⟨h.symm, h2⟩

/-! ### Lemmas about the distance matcher -/

theorem combMin_none (r : Option (Nat × ℚ)) : combMin none r = r := rfl

theorem combMin_some_none (s : Nat × ℚ) : combMin (some s) none = some s := rfl

theorem combMin_some_some (j k : Nat) (bd dk : ℚ) :
    combMin (some (j, bd)) (some (k, dk)) =
      if dk < bd then some (k, dk) else some (j, bd) := rfl

theorem fcStep_none (d : ℚ) : fcStep d none = some (0, d) := rfl

theorem fcStep_some (d : ℚ) (j : Nat) (bd : ℚ) :
    fcStep d (some (j, bd)) = if bd < d then some (j + 1, bd) else some (0, d) := rfl

theorem fcStep_ne_none (d : ℚ) (o : Option (Nat × ℚ)) : fcStep d o ≠ none := by
  rcases o with _ | ⟨j, bd⟩
  · simp [fcStep]
  · rw [fcStep_some]; split <;> simp

theorem combMin_assoc (a b c : Option (Nat × ℚ)) :
    combMin (combMin a b) c = combMin a (combMin b c) := by
  rcases a with _ | ⟨ja, da⟩
  · rw [combMin_none, combMin_none]
  rcases b with _ | ⟨jb, db⟩
  · rw [combMin_some_none, combMin_none]
  rcases c with _ | ⟨jc, dc⟩
  · rw [combMin_some_none, combMin_some_some]
    split <;> rw [combMin_some_none]
  by_cases h1 : db < da <;> by_cases h2 : dc < db <;> by_cases h3 : dc < da <;>
    simp only [combMin_some_some, h1, h2, h3, if_true, if_false] <;>
    first
      | rfl
      | (exfalso; linarith)

theorem fcLoop_eq_combMin (distSq : Lab → Lab → ℚ) (okT : Lab) (l : List Lab) :
    ∀ (i : Nat) (st : Option (Nat × ℚ)),
      fcLoop distSq okT l i st
        = combMin st ((fcRec distSq okT l).map fun p => ((p.1 + i) % 256, p.2)) := by
  induction l with
  | nil =>
    intro i st
    rcases st with _ | ⟨j, bd⟩ <;> rfl
  | cons c rest ih =>
    intro i st
    rw [fcLoop, ih, fcRec, combMin_assoc]
    congr 1
    rcases hr : fcRec distSq okT rest with _ | ⟨k, ek⟩
    · rw [Option.map_none', combMin_some_none, fcStep_none, Option.map_some']
      simp
    · rw [Option.map_some', fcStep_some]
      by_cases h : ek < distSq c okT
      · rw [if_pos h, Option.map_some', combMin_some_some, if_pos h]
        simp only [Option.some.injEq, Prod.mk.injEq, and_true]
        omega
      · rw [if_neg h, Option.map_some', combMin_some_some, if_neg h]
        simp

theorem fcRec_none_iff (distSq : Lab → Lab → ℚ) (okT : Lab) (l : List Lab) :
    fcRec distSq okT l = none ↔ l = [] := by
  cases l with
  | nil => simp [fcRec]
  | cons c rest => simp [fcRec, fcStep_ne_none]

theorem fcRec_spec (distSq : Lab → Lab → ℚ) (okT : Lab) (l : List Lab) (h : l ≠ []) :
    ∃ k d, fcRec distSq okT l = some (k, d) ∧ k < l.length ∧
      d = distSq (l.getD k labZero) okT ∧
      (∀ m, m < l.length → d ≤ distSq (l.getD m labZero) okT) ∧
      (∀ m, m < k → d < distSq (l.getD m labZero) okT) := by
  induction l with
  | nil => exact absurd rfl h
  | cons c rest ih =>
    by_cases hr : rest = []
    · subst hr
      refine ⟨0, distSq c okT, rfl, by simp, by simp, ?_, by simp⟩
      intro m hm
      have hm0 : m = 0 := by simpa using hm
      subst hm0
      simp
    · obtain ⟨k, d, hrec, hk, hd, hmin, hfirst⟩ := ih hr
      rw [fcRec, hrec, fcStep_some]
      by_cases hlt : d < distSq c okT
      · rw [if_pos hlt]
        refine ⟨k + 1, d, rfl, by simpa using hk, by simpa using hd, ?_, ?_⟩
        · intro m hm
          cases m with
          | zero => simpa using hlt.le
          | succ m => simpa using hmin m (by simpa using hm)
        · intro m hm
          cases m with
          | zero => simpa using hlt
          | succ m => simpa using hfirst m (by omega)
      · rw [if_neg hlt]
        refine ⟨0, distSq c okT, rfl, by simp, by simp, ?_, by simp⟩
        intro m hm
        cases m with
        | zero => simp
        | succ m =>
          have h1 := hmin m (by simpa using hm)
          have h2 : distSq c okT ≤ d := not_lt.mp hlt
          simpa using le_trans h2 h1

/-- The computed distance of candidate m of a palette to the target, in
(L, a, b) space. -/
def candDist (distSq : Lab → Lab → ℚ) (toOkl : RGBA → Lab) (rgba : RGBA)
    (palette : List RGBA) (m : Nat) : ℚ :=
  distSq (toOkl (palette.getD m black)) (toOkl rgba)

theorem map_getD_toOkl (toOkl : RGBA → Lab) (palette : List RGBA) (m : Nat)
    (hm : m < palette.length) :
    (palette.map toOkl).getD m labZero = toOkl (palette.getD m black) := by
  rw [List.getD_eq_getElem?_getD, List.getD_eq_getElem?_getD, List.getElem?_map,
    List.getElem?_eq_getElem hm]
  simp

theorem find_closest_eq_fcRec (distSq : Lab → Lab → ℚ) (toOkl : RGBA → Lab)
    (rgba : RGBA) (palette : List RGBA) :
    find_closest distSq toOkl rgba palette
      = (fcRec distSq (toOkl rgba) (palette.map toOkl)).map fun p => p.1 % 256 := by
  unfold find_closest
  rw [fcLoop_eq_combMin, combMin_none]
  rcases fcRec distSq (toOkl rgba) (palette.map toOkl) with _ | ⟨k, d⟩
  · rfl
  · simp

theorem find_closest_none_iff (distSq : Lab → Lab → ℚ) (toOkl : RGBA → Lab)
    (rgba : RGBA) (palette : List RGBA) :
    find_closest distSq toOkl rgba palette = none ↔ palette = [] := by
  rw [find_closest_eq_fcRec]
  rcases h : fcRec distSq (toOkl rgba) (palette.map toOkl) with _ | ⟨k, d⟩
  · have := (fcRec_none_iff distSq (toOkl rgba) (palette.map toOkl)).mp h
    simp only [Option.map_none']
    simpa using this
  · have : palette.map toOkl ≠ [] := by
      intro hEq
      rw [hEq] at h
      exact (by simp [fcRec] at h)
    simp only [Option.map_some']
    constructor
    · intro hc; exact absurd hc (by simp)
    · intro hc; rw [hc] at this; simp at this

theorem find_closest_spec (distSq : Lab → Lab → ℚ) (toOkl : RGBA → Lab) (rgba : RGBA)
    (palette : List RGBA) (h : palette ≠ []) (hlen : palette.length ≤ 256) :
    ∃ k, find_closest distSq toOkl rgba palette = some k ∧ k < palette.length ∧
      (∀ m, m < palette.length →
        candDist distSq toOkl rgba palette k ≤ candDist distSq toOkl rgba palette m) ∧
      (∀ m, m < k →
        candDist distSq toOkl rgba palette k < candDist distSq toOkl rgba palette m) := by
  have hne : palette.map toOkl ≠ [] := by simpa using h
  obtain ⟨k, d, hrec, hk, hd, hmin, hfirst⟩ :=
    fcRec_spec distSq (toOkl rgba) (palette.map toOkl) hne
  have hklen : k < palette.length := by simpa using hk
  refine ⟨k, ?_, hklen, ?_, ?_⟩
  · rw [find_closest_eq_fcRec, hrec, Option.map_some',
      Nat.mod_eq_of_lt (lt_of_lt_of_le hklen hlen)]
  · intro m hm
    have h1 := hmin m (by simpa using hm)
    unfold candDist
    rw [← map_getD_toOkl toOkl palette m hm, ← map_getD_toOkl toOkl palette k hklen, ← hd]
    exact h1
  · intro m hm
    have hmlen : m < palette.length := lt_trans hm hklen
    have h1 := hfirst m hm
    unfold candDist
    rw [← map_getD_toOkl toOkl palette m hmlen, ← map_getD_toOkl toOkl palette k hklen, ← hd]
    exact h1

/-! ### Lemmas about chunking, palettes and serialization -/

theorem chunksExact8_length (l : List Nat) : (chunksExact8 l).length = l.length / 8 := by
  induction l using chunksExact8.induct with
  | case1 a0 a1 a2 a3 a4 a5 a6 a7 rest ih =>
    rw [chunksExact8]
    simp only [List.length_cons, ih]
    omega
  | case2 l hl =>
    rw [chunksExact8.eq_def]
    split
    · next a0 a1 a2 a3 a4 a5 a6 a7 rest => exact absurd rfl (hl a0 a1 a2 a3 a4 a5 a6 a7 rest)
    · rcases l with _ | ⟨b0, _ | ⟨b1, _ | ⟨b2, _ | ⟨b3, _ | ⟨b4, _ | ⟨b5, _ | ⟨b6, _ | ⟨b7, r⟩⟩⟩⟩⟩⟩⟩⟩ <;>
        first
          | exact absurd rfl (hl _ _ _ _ _ _ _ _ _)
          | (simp only [List.length_nil, List.length_cons]; try omega)

theorem break_into_chunks_length (p : Palettes) (toOkl : RGBA → Lab) (indexes : List Nat) :
    (break_into_chunks p toOkl indexes).length = indexes.length / 8 := by
  unfold break_into_chunks
  rw [List.length_map, chunksExact8_length]

theorem scale63_le (c : Nat) (hc : c ≤ 255) : scale63 c ≤ 63 := by
  unfold scale63
  omega

theorem getD_map_rgba (f : RGBA → RGBA) (l : List RGBA) (i : Nat) (hi : i < l.length) :
    (l.map f).getD i black = f (l.getD i black) := by
  rw [List.getD_eq_getElem?_getD, List.getD_eq_getElem?_getD, List.getElem?_map,
    List.getElem?_eq_getElem hi]
  simp

theorem palettes_new_vga (input : List RGBA) :
    (Palettes.new input).vga = input.map scaleColor ++ List.replicate (16 - input.length) black :=
  rfl

theorem palettes_new_rgba (input : List RGBA) :
    (Palettes.new input).rgba = (Palettes.new input).vga.map times4u8 :=
  rfl

theorem palettes_new_vga_length (input : List RGBA) (h : input.length ≤ 16) :
    (Palettes.new input).vga.length = 16 := by
  rw [palettes_new_vga, List.length_append, List.length_map, List.length_replicate]
  omega

theorem palettes_new_vga_length_ge (input : List RGBA) :
    16 ≤ (Palettes.new input).vga.length := by
  rw [palettes_new_vga, List.length_append, List.length_map, List.length_replicate]
  omega

theorem palettes_new_vga_getD_lt (input : List RGBA) (i : Nat) (hi : i < input.length) :
    (Palettes.new input).vga.getD i black = scaleColor (input.getD i black) := by
  rw [palettes_new_vga, List.getD_eq_getElem?_getD, List.getElem?_append_left (by simpa using hi),
    ← List.getD_eq_getElem?_getD, getD_map_rgba scaleColor input i hi]

theorem palettes_new_vga_getD_pad (input : List RGBA) (i : Nat)
    (hlen : input.length ≤ i) (hi : i < 16) :
    (Palettes.new input).vga.getD i black = black := by
  rw [palettes_new_vga, List.getD_eq_getElem?_getD,
    List.getElem?_append_right (by simpa using hlen)]
  rw [List.length_map, List.getElem?_replicate_of_lt (by omega)]
  rfl

theorem palettes_new_vga_bounded (input : List RGBA)
    (hb : ∀ c ∈ input, c.r ≤ 255 ∧ c.g ≤ 255 ∧ c.b ≤ 255) :
    ∀ c ∈ (Palettes.new input).vga, c.r ≤ 63 ∧ c.g ≤ 63 ∧ c.b ≤ 63 := by
  intro c hc
  rw [palettes_new_vga] at hc
  rcases List.mem_append.mp hc with hc | hc
  · rcases List.mem_map.mp hc with ⟨x, hx, rfl⟩
    obtain ⟨h1, h2, h3⟩ := hb x hx
    exact ⟨scale63_le _ h1, scale63_le _ h2, scale63_le _ h3⟩
  · rw [List.eq_of_mem_replicate hc]
    simp [black]

theorem palette_to_bytes_length (palette : List RGBA) :
    (palette_to_bytes palette).length = 3 * palette.length := by
  induction palette with
  | nil => rfl
  | cons c rest ih =>
    unfold palette_to_bytes at ih ⊢
    rw [List.map_cons, List.flatten_cons, List.length_append, ih]
    simp only [List.length_cons, List.length_nil]
    omega

theorem chunks_to_bytes_length (chunks : List Chunk) :
    (chunks_to_bytes chunks).length = 2 * chunks.length := by
  induction chunks with
  | nil => rfl
  | cons c rest ih =>
    unfold chunks_to_bytes at ih ⊢
    rw [List.map_cons, List.flatten_cons, List.length_append, ih]
    simp only [List.length_cons, List.length_nil]
    omega

theorem u16le_length (n : Nat) : (u16le n).length = 2 := rfl

theorem font_bytes_length : font_bytes.length = 256 := by
  rw [font_bytes, List.length_range]

theorem countIdx_all (chunk : List Nat) (c j : Nat) (hall : ∀ x ∈ chunk, x = c) :
    countIdx chunk j = if c = j then chunk.length else 0 := by
  induction chunk with
  | nil => simp [countIdx]
  | cons x rest ih =>
    have hx : x = c := hall x (List.mem_cons_self _ _)
    subst hx
    rw [countIdx, ih fun y hy => hall y (List.mem_cons_of_mem _ hy)]
    by_cases h : x = j
    · simp [h, List.length_cons]
      omega
    · simp [h]

theorem save_xbin_fields (width height : Nat) (palette : List RGBA) (chunks : List Chunk)
    (hpal : palette.length = 16) :
    (save_xbin width height palette chunks).take 5 = [88, 66, 73, 78, 26] ∧
    ((save_xbin width height palette chunks).drop 5).take 2 = u16le (width / 8 % 65536) ∧
    ((save_xbin width height palette chunks).drop 7).take 2 = u16le (height % 65536) ∧
    ((save_xbin width height palette chunks).drop 9).take 2 = [1, 11] ∧
    ((save_xbin width height palette chunks).drop 11).take 48 = palette_to_bytes palette ∧
    ((save_xbin width height palette chunks).drop 59).take 256 = font_bytes ∧
    (save_xbin width height palette chunks).drop 315 = chunks_to_bytes chunks := by
  have hpb : (palette_to_bytes palette).length = 48 := by
    rw [palette_to_bytes_length, hpal]
  have hm5 : ([88, 66, 73, 78, 26] : List Nat).length = 5 := rfl
  have hfl : ([1, 11] : List Nat).length = 2 := rfl
  have d5 : (save_xbin width height palette chunks).drop 5
      = u16le (width / 8 % 65536) ++ (u16le (height % 65536) ++ ([1, 11]
        ++ (palette_to_bytes palette ++ (font_bytes ++ chunks_to_bytes chunks)))) := by
    unfold save_xbin
    exact List.drop_left' hm5
  have d7 : (save_xbin width height palette chunks).drop 7
      = u16le (height % 65536) ++ ([1, 11]
        ++ (palette_to_bytes palette ++ (font_bytes ++ chunks_to_bytes chunks))) := by
    rw [show (7 : Nat) = 5 + 2 from rfl, ← List.drop_drop, d5,
      List.drop_left' (u16le_length _)]
  have d9 : (save_xbin width height palette chunks).drop 9
      = [1, 11] ++ (palette_to_bytes palette ++ (font_bytes ++ chunks_to_bytes chunks)) := by
    rw [show (9 : Nat) = 7 + 2 from rfl, ← List.drop_drop, d7,
      List.drop_left' (u16le_length _)]
  have d11 : (save_xbin width height palette chunks).drop 11
      = palette_to_bytes palette ++ (font_bytes ++ chunks_to_bytes chunks) := by
    rw [show (11 : Nat) = 9 + 2 from rfl, ← List.drop_drop, d9, List.drop_left' hfl]
  have d59 : (save_xbin width height palette chunks).drop 59
      = font_bytes ++ chunks_to_bytes chunks := by
    rw [show (59 : Nat) = 11 + 48 from rfl, ← List.drop_drop, d11, List.drop_left' hpb]
  have d315 : (save_xbin width height palette chunks).drop 315 = chunks_to_bytes chunks := by
    rw [show (315 : Nat) = 59 + 256 from rfl, ← List.drop_drop, d59,
      List.drop_left' font_bytes_length]
  refine ⟨?_, ?_, ?_, ?_, ?_, ?_, d315⟩
  · unfold save_xbin
    exact List.take_left' hm5
  · rw [d5]
    exact List.take_left' (u16le_length _)
  · rw [d7]
    exact List.take_left' (u16le_length _)
  · rw [d9]
    exact List.take_left' hfl
  · rw [d11]
    exact List.take_left' hpb
  · rw [d59]
    exact List.take_left' font_bytes_length

theorem reduceChunk_bg (p : Palettes) (toOkl : RGBA → Lab) (chunk : List Nat) :
    (reduceChunk p toOkl chunk).bg = chunkBg chunk := by
  rw [reduceChunk]

theorem reduceChunk_fg (p : Palettes) (toOkl : RGBA → Lab) (chunk : List Nat) :
    (reduceChunk p toOkl chunk).fg = chunkFg chunk := by
  rw [reduceChunk]

/-! ### Claim theorems -/

unseal Rat.add Rat.sub Rat.mul in
/-- C1 is violated by the code: in the block [5, 5, 5, 5, 3, 3, 3, 7] over the
grey palette, bg = 5 and fg = 3, yet the pixel holding index 7 is remapped to
0 — the position of the closer candidate inside the two-entry candidate list,
not the palette index of that candidate — so its post-reduction index is
neither bg nor fg. -/
theorem C1_block_invariant_violated :
    (reduceChunk greyPalettes okId bugChunk).bg = 5 ∧
    (reduceChunk greyPalettes okId bugChunk).fg = 3 ∧
    (reducedIndexes greyPalettes okId bugChunk).getD 7 0 = 0 ∧
    ¬((reducedIndexes greyPalettes okId bugChunk).getD 7 0
        = (reduceChunk greyPalettes okId bugChunk).bg ∨
      (reducedIndexes greyPalettes okId bugChunk).getD 7 0
        = (reduceChunk greyPalettes okId bugChunk).fg) := by
  decide

unseal Rat.add Rat.sub Rat.mul in
/-- C2 is violated by the code at the same block: the bit of pixel 7 (the
least significant bit of the codepoint, bit index 7 counted from the most
significant) is 1, yet that pixel's post-reduction index (0) differs from
fg (3), because the remap wrote the candidate position instead of the palette
index. -/
theorem C2_codepoint_bit_mismatch :
    (reduceChunk greyPalettes okId bugChunk).codepoint = 15 ∧
    (reduceChunk greyPalettes okId bugChunk).codepoint % 2 = 1 ∧
    (reducedIndexes greyPalettes okId bugChunk).getD 7 0
      ≠ (reduceChunk greyPalettes okId bugChunk).fg := by
  decide

/-- C3 counterexample: on a 9-entry index buffer (not a multiple of 8) block
reduction does not fail with any error; it produces one block, contradicting
the claim that no blocks are produced. -/
theorem C3_counterexample :
    ¬(8 ∣ nineIdx.length) ∧ (break_into_chunks greyPalettes okId nineIdx).length = 1 := by
  exact ⟨by decide, by decide⟩

/-- C3 amended: for every index buffer whose length is not a multiple of 8,
block reduction raises no error: it yields exactly one block per complete
group of 8 consecutive indices and silently ignores the trailing remainder. -/
theorem C3_remainder_ignored (p : Palettes) (toOkl : RGBA → Lab) (indexes : List Nat)
    (h : ¬(8 ∣ indexes.length)) :
    (break_into_chunks p toOkl indexes).length = indexes.length / 8 :=
  break_into_chunks_length p toOkl indexes

/-- Witness for the amended C3 theorem at the concrete 9-entry buffer. -/
theorem C3_witness :
    ¬(8 ∣ nineIdx.length) ∧
    (break_into_chunks greyPalettes okId nineIdx).length = nineIdx.length / 8 :=
  ⟨by decide, C3_remainder_ignored greyPalettes okId nineIdx (by decide)⟩

/-- C4 counterexample: when all 8 pixels hold palette index 0, the second
dominant slot is filled with index 1, not with the sentinel index 0 the claim
requires regardless of the single color. -/
theorem C4_counterexample :
    (∀ x ∈ List.replicate 8 0, x = 0) ∧
    (reduceChunk greyPalettes okId (List.replicate 8 0)).fg = 1 ∧
    (reduceChunk greyPalettes okId (List.replicate 8 0)).fg ≠ 0 := by
  decide

/-- C4 amended: when all 8 pixels of a group share one color c, bg = c and
the second slot receives the lowest palette index different from c — 0
whenever c is not 0, but 1 when c = 0 — with an occurrence count of 0. -/
theorem C4_single_color_fallback (p : Palettes) (toOkl : RGBA → Lab) (chunk : List Nat)
    (c : Nat) (hc : c < 16) (h8 : chunk.length = 8) (hall : ∀ x ∈ chunk, x = c) :
    (reduceChunk p toOkl chunk).bg = c ∧
    (reduceChunk p toOkl chunk).fg = (if c = 0 then 1 else 0) ∧
    countIdx chunk ((reduceChunk p toOkl chunk).fg) = 0 := by
  rw [reduceChunk_bg, reduceChunk_fg]
  have htop := bgfg_top2 chunk
  unfold IsTop2 at htop
  obtain ⟨hbg16, hfg16, hne, hrank, htop1, htop2⟩ := htop
  have hcnt : ∀ j, countIdx chunk j = if c = j then 8 else 0 := by
    intro j
    rw [countIdx_all chunk c j hall, h8]
  have hbgc : chunkBg chunk = c := by
    by_contra hbgne
    have h1 := htop1 c hc fun hEq => hbgne hEq.symm
    have h2 := hcnt c
    have h3 := hcnt (chunkBg chunk)
    rw [if_pos rfl] at h2
    rw [if_neg fun hEq => hbgne hEq.symm] at h3
    omega
  have hfgc : chunkFg chunk ≠ c := by
    rw [← hbgc]
    exact fun hEq => hne hEq.symm
  have hcntfg : countIdx chunk (chunkFg chunk) = 0 := by
    rw [hcnt, if_neg fun hEq => hfgc hEq.symm]
  have hminfg : ∀ j, j < 16 → j ≠ c → j ≠ chunkFg chunk → chunkFg chunk < j := by
    intro j hj hjc hjf
    have h1 := htop2 j hj (by rw [hbgc]; exact hjc) hjf
    have h2 := hcnt j
    rw [if_neg fun hEq => hjc hEq.symm] at h2
    rw [hcntfg, h2] at h1
    omega
  refine ⟨hbgc, ?_, hcntfg⟩
  by_cases hc0 : c = 0
  · rw [if_pos hc0]
    subst hc0
    rcases Nat.lt_or_ge (chunkFg chunk) 2 with h | h
    · omega
    · have := hminfg 1 (by omega) (by omega) (by omega)
      omega
  · rw [if_neg hc0]
    by_contra hfg0
    have h0c : (0 : Nat) ≠ c := fun hEq => hc0 hEq.symm
    have h0f : (0 : Nat) ≠ chunkFg chunk := fun hEq => hfg0 hEq.symm
    have := hminfg 0 (by omega) h0c h0f
    omega

/-- Witness for the amended C4 theorem: all pixels share color 3, so the
second slot is index 0 with count 0. -/
theorem C4_witness :
    (reduceChunk greyPalettes okId (List.replicate 8 3)).bg = 3 ∧
    (reduceChunk greyPalettes okId (List.replicate 8 3)).fg = (if 3 = 0 then 1 else 0) ∧
    countIdx (List.replicate 8 3) ((reduceChunk greyPalettes okId (List.replicate 8 3)).fg) = 0 :=
  C4_single_color_fallback greyPalettes okId (List.replicate 8 3) 3 (by decide) (by decide)
    (by decide)

/-- C5: for every 8-index group the two dominant slots are exactly the two
palette indices of highest occurrence count, bg the first-ranked and fg the
second-ranked, ties between equal counts broken toward the lower palette
index — the semantics of a stable sort by descending count over 0..15. -/
theorem C5_dominant_pair (p : Palettes) (toOkl : RGBA → Lab) (chunk : List Nat)
    (h8 : chunk.length = 8) :
    IsTop2 chunk (reduceChunk p toOkl chunk).bg (reduceChunk p toOkl chunk).fg := by
  rw [reduceChunk_bg, reduceChunk_fg]
  exact bgfg_top2 chunk

/-- Witness for C5 at the concrete block [5, 5, 5, 5, 3, 3, 3, 7]. -/
theorem C5_witness :
    bugChunk.length = 8 ∧
    IsTop2 bugChunk (reduceChunk greyPalettes okId bugChunk).bg
      (reduceChunk greyPalettes okId bugChunk).fg :=
  ⟨by decide, C5_dominant_pair greyPalettes okId bugChunk (by decide)⟩

set_option maxRecDepth 4000 in
unseal Rat.add Rat.sub Rat.mul in
/-- C6 counterexample: on a 257-candidate palette whose unique closest entry
to the black target sits at index 256, the matcher returns 0 — the source's
`index as u8` cast truncates 256 to 0 — although candidate 256 is strictly
closer than candidate 0, so the returned index is not an index of minimal
distance. -/
theorem C6_counterexample :
    bigPal ≠ [] ∧ bigPal.length = 257 ∧
    find_closest okDistSq okId ⟨0, 0, 0, 255⟩ bigPal = some 0 ∧
    candDist okDistSq okId ⟨0, 0, 0, 255⟩ bigPal 256
      < candDist okDistSq okId ⟨0, 0, 0, 255⟩ bigPal 0 := by
  decide

/-- C6 amended: for every computed distance function, every conversion into
(L, a, b) space, every target and every non-empty candidate palette of at
most 256 candidates (the range in which the source's `index as u8` cast is
the identity; the caller always passes exactly 2), the matcher returns the
index of a candidate of minimal computed squared distance, every earlier
candidate having strictly larger distance (first-wins tie-break); it returns
none — the source's EmptyPalette panic through expect — if and only if the
candidate list is empty. -/
theorem C6_find_closest_correct (distSq : Lab → Lab → ℚ) (toOkl : RGBA → Lab)
    (rgba : RGBA) (palette : List RGBA) (hlen : palette.length ≤ 256) :
    (find_closest distSq toOkl rgba palette = none ↔ palette = []) ∧
    (palette ≠ [] → ∃ k, find_closest distSq toOkl rgba palette = some k ∧
      k < palette.length ∧
      (∀ m, m < palette.length →
        candDist distSq toOkl rgba palette k ≤ candDist distSq toOkl rgba palette m) ∧
      (∀ m, m < k →
        candDist distSq toOkl rgba palette k < candDist distSq toOkl rgba palette m)) :=
  ⟨find_closest_none_iff distSq toOkl rgba palette,
    fun h => find_closest_spec distSq toOkl rgba palette h hlen⟩

/-- Witness for the amended C6 theorem on a concrete two-candidate palette
with the exact-arithmetic distance. -/
theorem C6_witness :
    (find_closest okDistSq okId ⟨112, 112, 112, 255⟩ [⟨80, 80, 80, 255⟩, ⟨48, 48, 48, 255⟩]
        = none ↔ ([⟨80, 80, 80, 255⟩, ⟨48, 48, 48, 255⟩] : List RGBA) = []) ∧
    (([⟨80, 80, 80, 255⟩, ⟨48, 48, 48, 255⟩] : List RGBA) ≠ [] →
      ∃ k, find_closest okDistSq okId ⟨112, 112, 112, 255⟩
          [⟨80, 80, 80, 255⟩, ⟨48, 48, 48, 255⟩] = some k ∧
        k < ([⟨80, 80, 80, 255⟩, ⟨48, 48, 48, 255⟩] : List RGBA).length ∧
        (∀ m, m < ([⟨80, 80, 80, 255⟩, ⟨48, 48, 48, 255⟩] : List RGBA).length →
          candDist okDistSq okId ⟨112, 112, 112, 255⟩ [⟨80, 80, 80, 255⟩, ⟨48, 48, 48, 255⟩] k
            ≤ candDist okDistSq okId ⟨112, 112, 112, 255⟩
                [⟨80, 80, 80, 255⟩, ⟨48, 48, 48, 255⟩] m) ∧
        (∀ m, m < k →
          candDist okDistSq okId ⟨112, 112, 112, 255⟩ [⟨80, 80, 80, 255⟩, ⟨48, 48, 48, 255⟩] k
            < candDist okDistSq okId ⟨112, 112, 112, 255⟩
                [⟨80, 80, 80, 255⟩, ⟨48, 48, 48, 255⟩] m)) :=
  C6_find_closest_correct okDistSq okId ⟨112, 112, 112, 255⟩
    [⟨80, 80, 80, 255⟩, ⟨48, 48, 48, 255⟩] (by decide)

/-- C7: the serialized stream has the fixed layout — 5 magic bytes at offset
0, columns = width / 8 as u16 little-endian at offset 5, rows = height as u16
little-endian at offset 7, the 2-byte flags constant at offset 9, the 48
palette bytes at offset 11, the 256-byte identity glyph table at offset 59,
and from offset 315 the codepoint byte and the color-pair byte of each block
in source order, the block region being 2 * rows * columns bytes long. -/
theorem C7_xbin_layout (width height : Nat) (palette : List RGBA) (p : Palettes)
    (toOkl : RGBA → Lab) (indexes : List Nat) (hpal : palette.length = 16)
    (hlen : indexes.length = width * height) (hw : 8 ∣ width) :
    (save_xbin width height palette (break_into_chunks p toOkl indexes)).take 5
        = [88, 66, 73, 78, 26] ∧
    ((save_xbin width height palette (break_into_chunks p toOkl indexes)).drop 5).take 2
        = u16le (width / 8 % 65536) ∧
    ((save_xbin width height palette (break_into_chunks p toOkl indexes)).drop 7).take 2
        = u16le (height % 65536) ∧
    ((save_xbin width height palette (break_into_chunks p toOkl indexes)).drop 9).take 2
        = [1, 11] ∧
    ((save_xbin width height palette (break_into_chunks p toOkl indexes)).drop 11).take 48
        = palette_to_bytes palette ∧
    ((save_xbin width height palette (break_into_chunks p toOkl indexes)).drop 59).take 256
        = font_bytes ∧
    (save_xbin width height palette (break_into_chunks p toOkl indexes)).drop 315
        = chunks_to_bytes (break_into_chunks p toOkl indexes) ∧
    ((save_xbin width height palette (break_into_chunks p toOkl indexes)).drop 315).length
        = 2 * height * (width / 8) := by
  obtain ⟨t1, t2, t3, t4, t5, t6, t7⟩ :=
    save_xbin_fields width height palette (break_into_chunks p toOkl indexes) hpal
  refine ⟨t1, t2, t3, t4, t5, t6, t7, ?_⟩
  rw [t7, chunks_to_bytes_length, break_into_chunks_length, hlen]
  obtain ⟨k, rfl⟩ := hw
  have h8 : (0 : Nat) < 8 := by omega
  rw [Nat.mul_assoc, Nat.mul_div_cancel_left (k * height) h8, Nat.mul_div_cancel_left k h8]
  ring

/-- Witness for C7 on an 8-by-1 image over the grey palette. -/
theorem C7_witness :
    (save_xbin 8 1 greyPalettes.vga (break_into_chunks greyPalettes okId bugChunk)).take 5
        = [88, 66, 73, 78, 26] ∧
    ((save_xbin 8 1 greyPalettes.vga (break_into_chunks greyPalettes okId bugChunk)).drop 5).take 2
        = u16le (8 / 8 % 65536) ∧
    ((save_xbin 8 1 greyPalettes.vga (break_into_chunks greyPalettes okId bugChunk)).drop 7).take 2
        = u16le (1 % 65536) ∧
    ((save_xbin 8 1 greyPalettes.vga (break_into_chunks greyPalettes okId bugChunk)).drop 9).take 2
        = [1, 11] ∧
    ((save_xbin 8 1 greyPalettes.vga (break_into_chunks greyPalettes okId bugChunk)).drop 11).take 48
        = palette_to_bytes greyPalettes.vga ∧
    ((save_xbin 8 1 greyPalettes.vga (break_into_chunks greyPalettes okId bugChunk)).drop 59).take 256
        = font_bytes ∧
    (save_xbin 8 1 greyPalettes.vga (break_into_chunks greyPalettes okId bugChunk)).drop 315
        = chunks_to_bytes (break_into_chunks greyPalettes okId bugChunk) ∧
    ((save_xbin 8 1 greyPalettes.vga (break_into_chunks greyPalettes okId bugChunk)).drop 315).length
        = 2 * 1 * (8 / 8) :=
  C7_xbin_layout 8 1 greyPalettes.vga greyPalettes okId bugChunk (by decide) (by decide)
    (by decide)

/-- C8: for an input palette of at most 16 colors with 8-bit channels, the
hardware palette has exactly 16 entries; entry i below the input length is
the channelwise round(c / 255 * 63) scaling of input entry i, every missing
entry is padded as opaque black, and every channel lies in 0..63. -/
theorem C8_hardware_palette (input : List RGBA) (hlen : input.length ≤ 16)
    (hb : ∀ c ∈ input, c.r ≤ 255 ∧ c.g ≤ 255 ∧ c.b ≤ 255) :
    (Palettes.new input).vga.length = 16 ∧
    (∀ i, i < input.length →
      (Palettes.new input).vga.getD i black = scaleColor (input.getD i black)) ∧
    (∀ i, input.length ≤ i → i < 16 → (Palettes.new input).vga.getD i black = black) ∧
    (∀ c ∈ (Palettes.new input).vga, c.r ≤ 63 ∧ c.g ≤ 63 ∧ c.b ≤ 63) :=
  ⟨palettes_new_vga_length input hlen,
    fun i hi => palettes_new_vga_getD_lt input i hi,
    fun i h1 h2 => palettes_new_vga_getD_pad input i h1 h2,
    palettes_new_vga_bounded input hb⟩

/-- Witness for C8 at the concrete grey input palette. -/
theorem C8_witness :
    (Palettes.new greyPal).vga.length = 16 ∧
    (∀ i, i < greyPal.length →
      (Palettes.new greyPal).vga.getD i black = scaleColor (greyPal.getD i black)) ∧
    (∀ i, greyPal.length ≤ i → i < 16 → (Palettes.new greyPal).vga.getD i black = black) ∧
    (∀ c ∈ (Palettes.new greyPal).vga, c.r ≤ 63 ∧ c.g ≤ 63 ∧ c.b ≤ 63) :=
  C8_hardware_palette greyPal (by decide) (by decide)

/-- C9: for every input palette and every index i below 16, each channel of
the render palette entry is exactly 4 times the corresponding hardware
channel — the u8 multiplication cannot wrap because every hardware channel is
at most 63. -/
theorem C9_render_times_four (input : List RGBA)
    (hb : ∀ c ∈ input, c.r ≤ 255 ∧ c.g ≤ 255 ∧ c.b ≤ 255) (i : Nat) (hi : i < 16) :
    ((Palettes.new input).rgba.getD i black).r = 4 * ((Palettes.new input).vga.getD i black).r ∧
    ((Palettes.new input).rgba.getD i black).g = 4 * ((Palettes.new input).vga.getD i black).g ∧
    ((Palettes.new input).rgba.getD i black).b = 4 * ((Palettes.new input).vga.getD i black).b ∧
    ((Palettes.new input).vga.getD i black).r ≤ 63 ∧
    ((Palettes.new input).vga.getD i black).g ≤ 63 ∧
    ((Palettes.new input).vga.getD i black).b ≤ 63 := by
  have hge := palettes_new_vga_length_ge input
  have hilen : i < (Palettes.new input).vga.length := lt_of_lt_of_le hi hge
  have hmem : (Palettes.new input).vga.getD i black ∈ (Palettes.new input).vga := by
    rw [List.getD_eq_getElem?_getD, List.getElem?_eq_getElem hilen]
    exact List.getElem_mem hilen
  obtain ⟨h1, h2, h3⟩ := palettes_new_vga_bounded input hb _ hmem
  have hr : (Palettes.new input).rgba.getD i black
      = times4u8 ((Palettes.new input).vga.getD i black) := by
    rw [palettes_new_rgba, getD_map_rgba times4u8 _ i hilen]
  rw [hr]
  refine ⟨?_, ?_, ?_, h1, h2, h3⟩ <;> dsimp only [times4u8] <;> omega

/-- Witness for C9 at the grey input palette and index 3. -/
theorem C9_witness :
    ((Palettes.new greyPal).rgba.getD 3 black).r = 4 * ((Palettes.new greyPal).vga.getD 3 black).r ∧
    ((Palettes.new greyPal).rgba.getD 3 black).g = 4 * ((Palettes.new greyPal).vga.getD 3 black).g ∧
    ((Palettes.new greyPal).rgba.getD 3 black).b = 4 * ((Palettes.new greyPal).vga.getD 3 black).b ∧
    ((Palettes.new greyPal).vga.getD 3 black).r ≤ 63 ∧
    ((Palettes.new greyPal).vga.getD 3 black).g ≤ 63 ∧
    ((Palettes.new greyPal).vga.getD 3 black).b ≤ 63 :=
  C9_render_times_four greyPal (by decide) 3 (by decide)

/-- C10: every block produced by block reduction has bg and fg distinct and
both in 0..15, so the color-pair byte (bg << 4) + fg never wraps a u8 and
determines the pair uniquely via division and remainder by 16. -/
theorem C10_color_pair (p : Palettes) (toOkl : RGBA → Lab) (indexes : List Nat)
    (ch : Chunk) (hch : ch ∈ break_into_chunks p toOkl indexes) :
    ch.bg < 16 ∧ ch.fg < 16 ∧ ch.bg ≠ ch.fg ∧
    (ch.bg * 16 % 256 + ch.fg) % 256 = ch.bg * 16 + ch.fg ∧
    (ch.bg * 16 + ch.fg) / 16 = ch.bg ∧ (ch.bg * 16 + ch.fg) % 16 = ch.fg := by
  unfold break_into_chunks at hch
  rcases List.mem_map.mp hch with ⟨c, hc, rfl⟩
  rw [reduceChunk_bg, reduceChunk_fg]
  have htop := bgfg_top2 c
  unfold IsTop2 at htop
  obtain ⟨hbg, hfg, hne, -, -, -⟩ := htop
  refine ⟨hbg, hfg, hne, ?_, ?_, ?_⟩ <;> omega

/-- Witness for C10 at the single block of the buffer [5, 5, 5, 5, 3, 3, 3, 3]. -/
theorem C10_witness :
    (reduceChunk greyPalettes okId [5, 5, 5, 5, 3, 3, 3, 3]).bg < 16 ∧
    (reduceChunk greyPalettes okId [5, 5, 5, 5, 3, 3, 3, 3]).fg < 16 ∧
    (reduceChunk greyPalettes okId [5, 5, 5, 5, 3, 3, 3, 3]).bg
      ≠ (reduceChunk greyPalettes okId [5, 5, 5, 5, 3, 3, 3, 3]).fg ∧
    ((reduceChunk greyPalettes okId [5, 5, 5, 5, 3, 3, 3, 3]).bg * 16 % 256
        + (reduceChunk greyPalettes okId [5, 5, 5, 5, 3, 3, 3, 3]).fg) % 256
      = (reduceChunk greyPalettes okId [5, 5, 5, 5, 3, 3, 3, 3]).bg * 16
        + (reduceChunk greyPalettes okId [5, 5, 5, 5, 3, 3, 3, 3]).fg ∧
    ((reduceChunk greyPalettes okId [5, 5, 5, 5, 3, 3, 3, 3]).bg * 16
        + (reduceChunk greyPalettes okId [5, 5, 5, 5, 3, 3, 3, 3]).fg) / 16
      = (reduceChunk greyPalettes okId [5, 5, 5, 5, 3, 3, 3, 3]).bg ∧
    ((reduceChunk greyPalettes okId [5, 5, 5, 5, 3, 3, 3, 3]).bg * 16
        + (reduceChunk greyPalettes okId [5, 5, 5, 5, 3, 3, 3, 3]).fg) % 16
      = (reduceChunk greyPalettes okId [5, 5, 5, 5, 3, 3, 3, 3]).fg :=
  C10_color_pair greyPalettes okId [5, 5, 5, 5, 3, 3, 3, 3]
    (reduceChunk greyPalettes okId [5, 5, 5, 5, 3, 3, 3, 3])
    (List.mem_singleton.mpr rfl)

end Img2Xbin
